import Mathlib

/-!
Verification of the reliability and data-shaping layer of the
`nyc-opendata-mcp` repository: retry policy, query cache, auto-pagination,
time windows, input validation, deduplication/aggregation, and trend
calculation.  Each JavaScript function is shallowly embedded as an
executable Lean definition; machine effects (the wall clock, the network)
are passed in explicitly as parameters.
-/

set_option maxHeartbeats 1000000

/-! ## Retry policy (`withRetry`, src/lib/reliability.js lines 164-220)

A thrown JavaScript error is modelled by the only part of it `withRetry`
inspects: the optional HTTP status found at `error.response?.status`.
The operation `requestFn` is modelled as a function from the attempt index
to either a success value or a thrown error, so that distinct attempts may
see distinct outcomes.  `withRetry` returns the final outcome together
with the number of times the operation was invoked; the sleeps between
attempts and the console logging have no bearing on the result and are
not modelled.  A thrown `Except.error none` models the `throw lastError`
after the loop when no attempt ever ran (`lastError` still `undefined`).
-/

structure JsError where
  status : Option Nat
  deriving DecidableEq, Repr

/-- The non-retryable test from line 189:
`status && status >= 400 && status < 500 && status !== 429`.
(A present status is a positive HTTP code, so JS truthiness of `status`
is subsumed by `400 <= s`.) -/
def fatal4xx (e : JsError) : Bool :=
  match e.status with
  | some s => decide (400 ≤ s ∧ s < 500 ∧ s ≠ 429)
  | none => false

/-- The `for` loop of `withRetry`, with `fuel = maxAttempts - attempt`
remaining iterations.  Returns the outcome and the number of invocations
of the operation performed from this iteration on. -/
def withRetryGo (op : Nat → Except JsError α) (maxAttempts : Nat) :
    Nat → Nat → Option JsError → Except (Option JsError) α × Nat
  | 0, _, lastError => (Except.error lastError, 0)
  | fuel + 1, attempt, _ =>
    match op attempt with
    | Except.ok v => (Except.ok v, 1)
    | Except.error e =>
      if fatal4xx e then (Except.error (some e), 1)
      else if attempt = maxAttempts - 1 then (Except.error (some e), 1)
      else
        let r := withRetryGo op maxAttempts fuel (attempt + 1) (some e)
        (r.1, r.2 + 1)

/-- `withRetry(requestFn, {maxAttempts})`: run the loop from attempt 0.
The default configuration has `maxAttempts = 3`. -/
def withRetry (op : Nat → Except JsError α) (maxAttempts : Nat := 3) :
    Except (Option JsError) α × Nat :=
  withRetryGo op maxAttempts maxAttempts 0 none

/-- C1: with the default `maxAttempts = 3`:
a first-attempt error with a non-429 4xx status (such as 404) is rethrown
after exactly one invocation; 503 failures on the first two attempts
followed by a success yield the success value after exactly three
invocations; and three retryable failures rethrow the last error after
exactly three invocations. -/
theorem withRetry_policy (op : Nat → Except JsError α) :
    (∀ e, op 0 = Except.error e → fatal4xx e = true →
      withRetry op 3 = (Except.error (some e), 1)) ∧
    (∀ e₀ e₁ v, op 0 = Except.error e₀ → e₀.status = some 503 →
      op 1 = Except.error e₁ → e₁.status = some 503 →
      op 2 = Except.ok v →
      withRetry op 3 = (Except.ok v, 3)) ∧
    (∀ e₀ e₁ e₂, op 0 = Except.error e₀ → fatal4xx e₀ = false →
      op 1 = Except.error e₁ → fatal4xx e₁ = false →
      op 2 = Except.error e₂ → fatal4xx e₂ = false →
      withRetry op 3 = (Except.error (some e₂), 3)) := by
  refine ⟨?_, ?_, ?_⟩
  · intro e h0 hf
    simp [withRetry, withRetryGo, h0, hf]
  · intro e₀ e₁ v h0 hs0 h1 hs1 h2
    have hf0 : fatal4xx e₀ = false := by simp [fatal4xx, hs0]
    have hf1 : fatal4xx e₁ = false := by simp [fatal4xx, hs1]
    simp [withRetry, withRetryGo, h0, h1, h2, hf0, hf1]
  · intro e₀ e₁ e₂ h0 hf0 h1 hf1 h2 hf2
    simp [withRetry, withRetryGo, h0, h1, h2, hf0, hf1, hf2]

/-- A concrete operation: 503 on attempts 0 and 1, success 7 on attempt 2. -/
def op503 : Nat → Except JsError Nat :=
  fun n => if n = 0 then Except.error ⟨some 503⟩
    else if n = 1 then Except.error ⟨some 503⟩
    else Except.ok 7

theorem withRetry_policy_witness : withRetry op503 3 = (Except.ok 7, 3) :=
  (withRetry_policy op503).2.1 ⟨some 503⟩ ⟨some 503⟩ 7 rfl rfl rfl rfl rfl

/-! ## Trend calculation (`calculateTrend`, src test trend-calculations and
src/mcps/nyc-311/tools/analyze_trends_v2.js lines 136-163)

Periods carry a numeric `count`.  JS floating-point arithmetic is modelled
over `ℚ`: in every branch reached below the computation is exact decimal
arithmetic, and the divide-by-zero guard ensures the division only happens
when the divisor is positive, so no `Infinity`/`NaN` can arise in the
model just as the guard prevents them in the code.  `toFixed(2)` is
modelled by `toFixed2` (round to 2 decimal digits, then print with
exactly two decimals), and `parseFloat(x.toFixed(2))` by `round2`. -/

structure TrendPeriod where
  period : String
  count : ℚ
  deriving DecidableEq, Repr

/-- `x.toFixed(2)` as a string, for a rational `x`. -/
def toFixed2 (q : ℚ) : String :=
  let scaled : Int := round (q * 100)
  let sign := if scaled < 0 then "-" else ""
  let n := scaled.natAbs
  let r := n % 100
  sign ++ toString (n / 100) ++ "." ++ (if r < 10 then "0" else "") ++ toString r

/-- `parseFloat(x.toFixed(2))`: round to two decimal places. -/
def round2 (q : ℚ) : ℚ :=
  (round (q * 100) : ℚ) / 100

structure Trend where
  direction : String
  percentage_change : String
  recent_avg : ℚ
  previous_avg : ℚ
  deriving DecidableEq, Repr

/-- The average of `timeline.slice(-7)` counts (the `recentAvg` of
`calculateTrend`). -/
def recentAvgOf (timeline : List TrendPeriod) : ℚ :=
  let recentPeriods := timeline.drop (timeline.length - 7)
  (recentPeriods.map TrendPeriod.count).sum / (recentPeriods.length : ℚ)

/-- The average of `timeline.slice(-14, -7)` counts (the `previousAvg` of
`calculateTrend`). -/
def previousAvgOf (timeline : List TrendPeriod) : ℚ :=
  let previousPeriods := (timeline.drop (timeline.length - 14)).take 7
  (previousPeriods.map TrendPeriod.count).sum / (previousPeriods.length : ℚ)

/-- `calculateTrend(timeline)`: `null` for fewer than 14 periods, else the
percentage change between the last 7 periods and the 7 before them, with
the divide-by-zero guard clamping to 999 (previous average zero, recent
positive) or 0 (both zero). -/
def calculateTrend (timeline : List TrendPeriod) : Option Trend :=
  if timeline.length < 14 then none
  else
    let recentAvg := recentAvgOf timeline
    let previousAvg := previousAvgOf timeline
    let percentageChange : ℚ :=
      if previousAvg > 0 then (recentAvg - previousAvg) / previousAvg * 100
      else if recentAvg > 0 then 999
      else 0
    some
      { direction :=
          if percentageChange > 0 then "increasing"
          else if percentageChange < 0 then "decreasing"
          else "stable"
        percentage_change := toFixed2 percentageChange
        recent_avg := round2 recentAvg
        previous_avg := round2 previousAvg }

/-- C2: with at least 14 periods, a zero previous average together with a
positive recent average yields exactly the clamp sentinel "999.00" with
direction "increasing"; two zero averages yield "0.00" and "stable"; and
fewer than 14 periods yield `none` (no trend computed at all). -/
theorem calculateTrend_guard (timeline : List TrendPeriod) :
    (14 ≤ timeline.length → previousAvgOf timeline = 0 →
      0 < recentAvgOf timeline →
      ∃ t, calculateTrend timeline = some t ∧
        t.percentage_change = "999.00" ∧ t.direction = "increasing") ∧
    (14 ≤ timeline.length → previousAvgOf timeline = 0 →
      recentAvgOf timeline = 0 →
      ∃ t, calculateTrend timeline = some t ∧
        t.percentage_change = "0.00" ∧ t.direction = "stable") ∧
    (timeline.length < 14 → calculateTrend timeline = none) := by
  have h999 : toFixed2 999 = "999.00" := by
    have hr : round ((999 : ℚ) * 100) = 99900 := by norm_num
    simp only [toFixed2, hr]
    decide
  have h0 : toFixed2 0 = "0.00" := by
    have hr : round ((0 : ℚ) * 100) = 0 := by norm_num
    simp only [toFixed2, hr]
    decide
  refine ⟨?_, ?_, ?_⟩
  · intro h14 hp hr
    refine ⟨⟨"increasing", toFixed2 999,
      round2 (recentAvgOf timeline), round2 (previousAvgOf timeline)⟩, ?_, h999, rfl⟩
    simp only [calculateTrend, if_neg (by omega : ¬ timeline.length < 14), hp]
    norm_num [hr]
  · intro h14 hp hr
    refine ⟨⟨"stable", toFixed2 0,
      round2 (recentAvgOf timeline), round2 (previousAvgOf timeline)⟩, ?_, h0, rfl⟩
    simp only [calculateTrend, if_neg (by omega : ¬ timeline.length < 14), hp, hr]
    norm_num
  · intro h14
    simp [calculateTrend, h14]

/-- A 14-period timeline: 7 zero-count periods, then 7 one-count periods. -/
def timeline14 : List TrendPeriod :=
  List.replicate 7 ⟨"prev", 0⟩ ++ List.replicate 7 ⟨"recent", 1⟩

theorem calculateTrend_guard_witness :
    ∃ t, calculateTrend timeline14 = some t ∧
      t.percentage_change = "999.00" ∧ t.direction = "increasing" :=
  (calculateTrend_guard timeline14).1
    (by norm_num [timeline14])
    (by norm_num [previousAvgOf, timeline14, List.replicate])
    (by norm_num [recentAvgOf, timeline14, List.replicate])

/-! ## Borough validation (`validateBorough`, src/lib/reliability.js
lines 583-640, the `lib/input-validation.js` segment)

`borough.toString().toUpperCase()` on a string argument is the ASCII
uppercase map, modelled character-by-character by `jsToUpper`.  The error
envelope produced by `createErrorEnvelope` keeps the fields the claim
inspects: the type, the message, and the `details` fields `valid_names`
and `valid_codes` spread into the error object, plus the guidance. -/

theorem char_toNat_ofNat_of_valid {n : Nat} (h : n.isValidChar) :
    (Char.ofNat n).toNat = n := by
  simp only [Char.ofNat, dif_pos h, Char.ofNatAux, Char.toNat]
  rfl

theorem char_toUpper_idem (c : Char) : c.toUpper.toUpper = c.toUpper := by
  simp only [Char.toUpper]
  by_cases h : c.toNat ≥ 97 ∧ c.toNat ≤ 122
  · rw [if_pos h]
    have hv : (c.toNat - 32).isValidChar := Or.inl (by omega)
    have ht : (Char.ofNat (c.toNat - 32)).toNat = c.toNat - 32 :=
      char_toNat_ofNat_of_valid hv
    rw [if_neg (by rw [ht]; omega)]
  · rw [if_neg h, if_neg h]

/-- `s.toUpperCase()` for ASCII strings. -/
def jsToUpper (s : String) : String := ⟨s.data.map Char.toUpper⟩

theorem jsToUpper_idem (s : String) : jsToUpper (jsToUpper s) = jsToUpper s := by
  simp only [jsToUpper, List.map_map]
  congr 1
  apply List.map_congr_left
  intro c _
  exact char_toUpper_idem c

theorem jsToUpper_eq_empty (s : String) : jsToUpper s = "" ↔ s = "" := by
  cases s with
  | mk d =>
    constructor
    · intro h
      have hd : (List.map Char.toUpper d) = [] := congrArg String.data h
      simp at hd
      simp [hd]
    · intro h
      rw [h]
      rfl

def VALID_BOROUGHS_codes : List String := ["1", "2", "3", "4", "5"]

def VALID_BOROUGHS_names : List String :=
  ["MANHATTAN", "BRONX", "BROOKLYN", "QUEENS", "STATEN ISLAND"]

/-- The `VALID_BOROUGHS.mapping` object, as a partial lookup. -/
def VALID_BOROUGHS_mapping (k : String) : Option String :=
  if k = "1" then some "MANHATTAN"
  else if k = "2" then some "BRONX"
  else if k = "3" then some "BROOKLYN"
  else if k = "4" then some "QUEENS"
  else if k = "5" then some "STATEN ISLAND"
  else if k = "M" then some "MANHATTAN"
  else if k = "X" then some "BRONX"
  else if k = "K" then some "BROOKLYN"
  else if k = "Q" then some "QUEENS"
  else if k = "R" then some "STATEN ISLAND"
  else none

structure ErrEnvelope where
  type : String
  message : String
  valid_names : List String
  valid_codes : List String
  guidance : String
  deriving DecidableEq, Repr

structure BoroughValidation where
  valid : Bool
  normalized : Option String
  error : Option ErrEnvelope
  deriving DecidableEq, Repr

/-- `validateBorough(borough)` for a string argument (an empty string is
falsy in JS and is the optional-parameter early return). -/
def validateBorough (borough : String) : BoroughValidation :=
  if borough = "" then { valid := true, normalized := none, error := none }
  else
    let upper := jsToUpper borough
    if VALID_BOROUGHS_codes.contains upper then
      { valid := true, normalized := some upper, error := none }
    else if VALID_BOROUGHS_names.contains upper then
      { valid := true, normalized := some upper, error := none }
    else
      match VALID_BOROUGHS_mapping upper with
      | some name => { valid := true, normalized := some name, error := none }
      | none =>
        { valid := false
          normalized := none
          error := some
            { type := "INVALID_INPUT"
              message := "Invalid borough: \x27" ++ borough ++
                "\x27. Must be one of: " ++
                String.intercalate ", " VALID_BOROUGHS_names ++ " or codes 1-5"
              valid_names := VALID_BOROUGHS_names
              valid_codes := VALID_BOROUGHS_codes
              guidance := "Use borough names (e.g., \"MANHATTAN\") or numeric codes (1-5)" } }

/-- C3 counterexample: contrary to the claim, the 2-letter short code
"bx" is rejected (`valid = false`), and the accepted numeric code "3"
normalizes to the digit string "3", not to the full borough name. -/
theorem validateBorough_claim_cex :
    (validateBorough "bx").valid = false ∧
    (validateBorough "3").normalized = some "3" ∧
    (validateBorough "3").normalized ≠ some "BROOKLYN" := by
  decide

/-- C3 amended: borough validation uppercases its input (so validity and
normalization are case-insensitive); it accepts full borough names and the
1-letter short codes M/X/K/Q/R, normalizing those to the uppercase full
name; it accepts the numeric codes 1-5 but normalizes them to the digit
string itself; 2-letter short codes such as "bx" are rejected; and every
unknown borough gets an INVALID_INPUT error listing the 5 valid borough
names. -/
theorem validateBorough_spec :
    (∀ s : String,
      (validateBorough (jsToUpper s)).valid = (validateBorough s).valid ∧
      (validateBorough (jsToUpper s)).normalized = (validateBorough s).normalized) ∧
    (∀ n ∈ VALID_BOROUGHS_names, validateBorough n =
      { valid := true, normalized := some n, error := none }) ∧
    (validateBorough "bronx" = { valid := true, normalized := some "BRONX", error := none }) ∧
    (validateBorough "staten island" =
      { valid := true, normalized := some "STATEN ISLAND", error := none }) ∧
    ((validateBorough "m").normalized = some "MANHATTAN") ∧
    ((validateBorough "X").normalized = some "BRONX") ∧
    ((validateBorough "k").normalized = some "BROOKLYN") ∧
    ((validateBorough "Q").normalized = some "QUEENS") ∧
    ((validateBorough "r").normalized = some "STATEN ISLAND") ∧
    (∀ c ∈ VALID_BOROUGHS_codes, validateBorough c =
      { valid := true, normalized := some c, error := none }) ∧
    ((validateBorough "bx").valid = false) ∧
    (∃ env, validateBorough "New Jersey" =
        { valid := false, normalized := none, error := some env } ∧
      env.type = "INVALID_INPUT" ∧
      env.valid_names = VALID_BOROUGHS_names ∧
      env.message = "Invalid borough: \x27New Jersey\x27. Must be one of: " ++
        "MANHATTAN, BRONX, BROOKLYN, QUEENS, STATEN ISLAND or codes 1-5") := by
  refine ⟨?_, ?_, ?_, ?_, ?_, ?_, ?_, ?_, ?_, ?_, ?_, ?_⟩
  · intro s
    by_cases h : s = ""
    · subst h
      exact ⟨rfl, rfl⟩
    · have h2 : jsToUpper s ≠ "" := fun hc => h ((jsToUpper_eq_empty s).mp hc)
      simp only [validateBorough, if_neg h, if_neg h2, jsToUpper_idem]
      split_ifs <;> (try cases hm : VALID_BOROUGHS_mapping (jsToUpper s)) <;> simp_all
  · decide
  · decide
  · decide
  · decide
  · decide
  · decide
  · decide
  · decide
  · decide
  · decide
  · refine ⟨(validateBorough "New Jersey").error.getD
      { type := "", message := "", valid_names := [], valid_codes := [], guidance := "" },
      by decide, by decide, by decide, by decide⟩

theorem validateBorough_spec_witness :
    validateBorough "BRONX" =
      { valid := true, normalized := some "BRONX", error := none } :=
  validateBorough_spec.2.1 "BRONX" (by decide)

/-! ## Query cache (`getCached`/`setCache`/`withCache`,
src/lib/reliability.js lines 78-124 and 230-261)

The `Map` keyed by cache key is modelled as an association list in
insertion order (`Map` iteration order), the wall clock (`Date.now()`) as
an explicit `now : Nat` in milliseconds, and the md5 cache key of
`getCacheKey` as the injective concatenation `endpoint ++ ":" ++ params`
of its pre-hash input (the `params` argument standing for the sorted JSON
serialization of the params object).  The async producer `requestFn` is
modelled as its outcome (`Except.error` = it throws); `withCache` reports
how many times it was invoked. -/

structure CacheEntry (α : Type) where
  data : α
  timestamp : Nat
  ttl : Nat
  deriving DecidableEq, Repr

def QueryCache (α : Type) : Type := List (String × CacheEntry α)

def CACHE_DEFAULT_TTL : Nat := 5 * 60 * 1000

def CACHE_MAX_SIZE : Nat := 1000

/-- `Map.set` semantics: replace in place when the key is present,
append at the end otherwise. -/
def mapSet (cache : List (String × β)) (key : String) (v : β) :
    List (String × β) :=
  if cache.any (fun kv => kv.1 = key) then
    cache.map (fun kv => if kv.1 = key then (key, v) else kv)
  else cache ++ [(key, v)]

/-- `Map.get` semantics on the association list. -/
def mapGet (cache : List (String × β)) (key : String) : Option β :=
  (cache.find? (fun kv => kv.1 = key)).map (fun kv => kv.2)

/-- `getCacheKey(endpoint, params)` (the md5 digest modelled as the
digest input itself, which is injective where md5 is only
collision-resistant). -/
def getCacheKey (endpoint params : String) : String :=
  endpoint ++ ":" ++ params

/-- `getCached(cacheKey)`: `none` on miss; an entry older than its TTL is
deleted and reported as a miss.  Returns the possibly-shrunk cache. -/
def getCached (now : Nat) (cacheKey : String) (cache : QueryCache α) :
    Option α × QueryCache α :=
  match mapGet cache cacheKey with
  | none => (none, cache)
  | some entry =>
    if now - entry.timestamp > entry.ttl then
      (none, cache.eraseP (fun kv => kv.1 = cacheKey))
    else (some entry.data, cache)

/-- `setCache(cacheKey, data, ttl)`: evict the oldest-inserted entry when
the cache is full, then `Map.set` the new entry. -/
def setCache (now : Nat) (cacheKey : String) (data : α) (ttl : Nat)
    (cache : QueryCache α) : QueryCache α :=
  let cache1 := if CACHE_MAX_SIZE ≤ cache.length then cache.tail else cache
  mapSet cache1 cacheKey ⟨data, now, ttl⟩

structure CacheCallResult (ε α : Type) where
  result : Except ε (α × Bool)
  cache : QueryCache α
  producerCalls : Nat

/-- JS truthiness of a number-valued result (`0` and `NaN` are falsy). -/
def jsNumTruthy (n : Int) : Bool := n != 0

/-- `withCache(endpoint, params, requestFn, {ttl, skipCache})`: the
stored data counts as a hit only when it passes the `if (cached)` JS
truthiness test (`truthy` embeds JS truthiness for the data type `α`), so
a falsy stored result such as `null`, `0` or `''` falls through to the
miss path, re-invoking the producer and re-storing; a fresh truthy hit is
returned with `cached = true` and no producer invocation; a producer
exception propagates before `setCache` runs. -/
def withCache (truthy : α → Bool) (now : Nat) (endpoint params : String)
    (producer : Except ε α) (ttl : Nat := CACHE_DEFAULT_TTL)
    (skipCache : Bool := false) (cache : QueryCache α) :
    CacheCallResult ε α :=
  let cacheKey := getCacheKey endpoint params
  let lookup := if skipCache then (none, cache) else getCached now cacheKey cache
  let hit := match lookup.1 with
    | some data => if truthy data then some data else none
    | none => none
  match hit with
  | some data => ⟨Except.ok (data, true), lookup.2, 0⟩
  | none =>
    match producer with
    | Except.error e => ⟨Except.error e, lookup.2, 1⟩
    | Except.ok data =>
      ⟨Except.ok (data, false), setCache now cacheKey data ttl lookup.2, 1⟩

/-- C4 counterexample: a producer returning the falsy number `0` defeats
the `if (cached)` test — two in-TTL calls with identical endpoint and
params invoke the producer once each (twice in total, not once), and the
second call returns `cached = false`, not the claimed `cached = true`. -/
theorem withCache_falsy_cex :
    (withCache (ε := Unit) jsNumTruthy 0 "ep" "ps" (Except.ok (0 : Int))
        300000 false []).producerCalls = 1 ∧
    (withCache (ε := Unit) jsNumTruthy 10 "ep" "ps" (Except.ok (0 : Int))
        300000 false
        (withCache (ε := Unit) jsNumTruthy 0 "ep" "ps" (Except.ok (0 : Int))
          300000 false []).cache).producerCalls = 1 ∧
    (withCache (ε := Unit) jsNumTruthy 10 "ep" "ps" (Except.ok (0 : Int))
        300000 false
        (withCache (ε := Unit) jsNumTruthy 0 "ep" "ps" (Except.ok (0 : Int))
          300000 false []).cache).result = Except.ok (0, false) :=
  ⟨rfl, rfl, rfl⟩

/-- C4 amended: starting from an empty cache, a first `withCache` call
invokes the producer (once) and stores its result; when the stored value
is truthy, a second call with the identical endpoint and params within
the entry's TTL returns it with `cached = true` and zero producer
invocations (so the two calls invoke a producer exactly once); a second
call after the TTL has expired invokes its producer again and returns
`cached = false`; and a falsy stored value is treated as a miss even
within the TTL — the producer is re-invoked and its result re-stored with
`cached = false`. -/
theorem withCache_ttl (truthy : α → Bool) (ep ps : String) (v w : α)
    (p : Except ε α) (ttl t0 t1 : Nat) :
    (withCache (ε := ε) truthy t0 ep ps (Except.ok v) ttl false [] =
      ⟨Except.ok (v, false), [(getCacheKey ep ps, ⟨v, t0, ttl⟩)], 1⟩) ∧
    (truthy v = true → t1 - t0 ≤ ttl →
      withCache truthy t1 ep ps p ttl false
          [(getCacheKey ep ps, ⟨v, t0, ttl⟩)] =
        ⟨Except.ok (v, true), [(getCacheKey ep ps, ⟨v, t0, ttl⟩)], 0⟩) ∧
    (ttl < t1 - t0 →
      withCache (ε := ε) truthy t1 ep ps (Except.ok w) ttl false
          [(getCacheKey ep ps, ⟨v, t0, ttl⟩)] =
        ⟨Except.ok (w, false), [(getCacheKey ep ps, ⟨w, t1, ttl⟩)], 1⟩) ∧
    (truthy v = false → t1 - t0 ≤ ttl →
      withCache (ε := ε) truthy t1 ep ps (Except.ok w) ttl false
          [(getCacheKey ep ps, ⟨v, t0, ttl⟩)] =
        ⟨Except.ok (w, false), [(getCacheKey ep ps, ⟨w, t1, ttl⟩)], 1⟩) := by
  refine ⟨?_, ?_, ?_, ?_⟩
  · simp [withCache, getCached, mapGet, setCache, mapSet, CACHE_MAX_SIZE]
  · intro ht h
    simp [withCache, getCached, mapGet, ht,
      if_neg (by omega : ¬ ttl < t1 - t0)]
  · intro h
    simp [withCache, getCached, mapGet, if_pos (by omega : ttl < t1 - t0),
      setCache, mapSet, CACHE_MAX_SIZE, List.eraseP]
  · intro ht h
    simp [withCache, getCached, mapGet, ht,
      if_neg (by omega : ¬ ttl < t1 - t0), setCache, mapSet, CACHE_MAX_SIZE]

theorem withCache_ttl_witness :
    jsNumTruthy 5 = true ∧ (10 - 0 ≤ 300000) ∧
    withCache (ε := Unit) jsNumTruthy 10 "ep" "ps" (Except.ok (9 : Int))
        300000 false [(getCacheKey "ep" "ps", ⟨5, 0, 300000⟩)] =
      ⟨Except.ok (5, true), [(getCacheKey "ep" "ps", ⟨5, 0, 300000⟩)], 0⟩ :=
  ⟨by decide, by norm_num,
    (withCache_ttl (ε := Unit) jsNumTruthy "ep" "ps" 5 7 (Except.ok 9)
        300000 0 10).2.1 (by decide) (by norm_num)⟩

/-- C10: when the producer throws on a cache miss, the error propagates
to the caller, the cache is returned unchanged (no entry is created or
updated for the key), and a subsequent call with the same endpoint and
params is still a miss that invokes its producer again. -/
theorem withCache_error_propagates (truthy : α → Bool) (now t' : Nat)
    (ep ps : String) (e : ε) (w : α) (ttl : Nat) (cache : QueryCache α)
    (h : mapGet cache (getCacheKey ep ps) = none) :
    withCache truthy now ep ps (Except.error e) ttl false cache =
      ⟨Except.error e, cache, 1⟩ ∧
    withCache (ε := ε) truthy t' ep ps (Except.ok w) ttl false
        ((withCache truthy now ep ps (Except.error e) ttl false
          cache).cache) =
      ⟨Except.ok (w, false),
        setCache t' (getCacheKey ep ps) w ttl cache, 1⟩ := by
  constructor
  · simp [withCache, getCached, h]
  · simp [withCache, getCached, h]

theorem withCache_error_propagates_witness :
    withCache (fun _ => true) 3 "ep" "ps" (Except.error "boom") 300000 false
        ([] : QueryCache Nat) =
      ⟨Except.error "boom", [], 1⟩ :=
  (withCache_error_propagates (fun _ => true) 3 9 "ep" "ps" "boom" 4
    300000 [] rfl).1

/-! ## Street-closure deduplication (`searchStreetClosures`,
src/unnamed/part_000 lines 82-129)

Raw API rows are deduplicated in a `Map` keyed by
`segmentid|work_start_date|work_end_date`; duplicates merge their
`purpose` into the accumulated `purposes` list when not already present.
The `Map` is again an association list in insertion order; `updateFirstAssoc`
is `Map.get`-then-mutate (only one entry per key ever exists).  Fields of
the merged record that are merely copied from the first row of a group
(street names, borough, geometry, unique id) and the post-dedup activity
enrichment are not modelled: they do not interact with the merge. -/

/-- Mutating the value stored under `key` in a JS `Map`, on the
association-list model: rewrite the first (only) entry with that key. -/
def updateFirstAssoc : List (String × β) → String → (β → β) → List (String × β)
  | [], _, _ => []
  | kv :: rest, k, f =>
    if kv.1 = k then (kv.1, f kv.2) :: rest
    else kv :: updateFirstAssoc rest k f

/-- The key list of an association list, in insertion order. -/
def keysOf (acc : List (String × β)) : List String := acc.map Prod.fst

theorem updateFirstAssoc_keysOf (acc : List (String × β)) (k : String)
    (f : β → β) : keysOf (updateFirstAssoc acc k f) = keysOf acc := by
  induction acc with
  | nil => rfl
  | cons kv rest ih =>
    simp only [updateFirstAssoc]
    split
    · simp [keysOf]
    · simp [keysOf] at ih ⊢
      exact ih

theorem mem_keysOf_iff_any (acc : List (String × β)) (k : String) :
    k ∈ keysOf acc ↔ acc.any (fun kv => kv.1 = k) = true := by
  simp [keysOf, List.any_eq_true, List.mem_map]

theorem updateFirstAssoc_mem_of_ne {acc : List (String × β)} {k k' : String}
    {f : β → β} (h : k' ≠ k) {m : β} (hm : (k', m) ∈ acc) :
    (k', m) ∈ updateFirstAssoc acc k f := by
  induction acc with
  | nil => cases hm
  | cons kv rest ih =>
    simp only [updateFirstAssoc]
    rcases List.mem_cons.mp hm with heq | hrest
    · subst heq
      rw [if_neg (by simpa using h)]
      exact List.mem_cons_self _ _
    · split
      · exact List.mem_cons_of_mem _ hrest
      · exact List.mem_cons_of_mem _ (ih hrest)

theorem updateFirstAssoc_mem_update {acc : List (String × β)} {k : String}
    {m : β} (f : β → β) (hn : (keysOf acc).Nodup) (hm : (k, m) ∈ acc) :
    (k, f m) ∈ updateFirstAssoc acc k f := by
  induction acc with
  | nil => cases hm
  | cons kv rest ih =>
    simp only [keysOf, List.map_cons, List.nodup_cons] at hn
    rcases List.mem_cons.mp hm with heq | hrest
    · subst heq
      simp [updateFirstAssoc]
    · have hk : kv.1 ≠ k := by
        intro hc
        exact hn.1 (hc ▸ (by simpa [keysOf] using List.mem_map_of_mem Prod.fst hrest))
      simp only [updateFirstAssoc, if_neg hk]
      exact List.mem_cons_of_mem _ (ih hn.2 hrest)

structure RawClosure where
  segmentid : String
  work_start_date : String
  work_end_date : String
  purpose : Option String
  deriving DecidableEq, Repr

/-- The composite key `segmentid|work_start_date|work_end_date`. -/
def closureKey (c : RawClosure) : String :=
  c.segmentid ++ "|" ++ c.work_start_date ++ "|" ++ c.work_end_date

structure MergedClosure where
  segment_id : String
  work_start_date : String
  work_end_date : String
  purposes : List String
  purpose_merged : String
  deriving DecidableEq, Repr

/-- The new-closure branch of the dedup loop (`closure.purpose ? [..] : []`,
`closure.purpose || 'Unknown'`; an empty string is falsy). -/
def newMergedClosure (c : RawClosure) : MergedClosure :=
  { segment_id := c.segmentid
    work_start_date := c.work_start_date
    work_end_date := c.work_end_date
    purposes := match c.purpose with
      | some p => if p ≠ "" then [p] else []
      | none => []
    purpose_merged := match c.purpose with
      | some p => if p ≠ "" then p else "Unknown"
      | none => "Unknown" }

/-- The duplicate branch: `if (closure.purpose && !existing.purposes
.includes(closure.purpose))` push the purpose and rejoin `purpose_merged`. -/
def mergeClosurePurpose (m : MergedClosure) (c : RawClosure) : MergedClosure :=
  match c.purpose with
  | some p =>
    if p ≠ "" ∧ p ∉ m.purposes then
      { m with purposes := m.purposes ++ [p]
               purpose_merged := String.intercalate "; " (m.purposes ++ [p]) }
    else m
  | none => m

/-- One iteration of the `response.data.forEach` dedup loop. -/
def closureInsert (acc : List (String × MergedClosure)) (c : RawClosure) :
    List (String × MergedClosure) :=
  if acc.any (fun kv => kv.1 = closureKey c) then
    updateFirstAssoc acc (closureKey c) (fun m => mergeClosurePurpose m c)
  else acc ++ [(closureKey c, newMergedClosure c)]

/-- The whole dedup pass over the raw rows (the `closureMap` contents, in
insertion order). -/
def dedupeClosures (rows : List RawClosure) : List (String × MergedClosure) :=
  rows.foldl closureInsert []

theorem mergeClosurePurpose_subset (m : MergedClosure) (c : RawClosure) :
    m.purposes ⊆ (mergeClosurePurpose m c).purposes := by
  cases hcp : c.purpose with
  | none => simp [mergeClosurePurpose, hcp]
  | some p =>
    simp only [mergeClosurePurpose, hcp]
    split
    · intro x hx
      simp [hx]
    · exact fun x hx => hx

theorem mergeClosurePurpose_mem {m : MergedClosure} {c : RawClosure}
    {p : String} (hp : c.purpose = some p) (hne : p ≠ "") :
    p ∈ (mergeClosurePurpose m c).purposes := by
  simp only [mergeClosurePurpose, hp]
  by_cases hmem : p ∈ m.purposes
  · rw [if_neg (by simp [hmem])]
    exact hmem
  · rw [if_pos ⟨hne, hmem⟩]
    simp

theorem closureInsert_keysOf_nodup {acc : List (String × MergedClosure)}
    (hn : (keysOf acc).Nodup) (c : RawClosure) :
    (keysOf (closureInsert acc c)).Nodup := by
  unfold closureInsert
  split
  · rwa [updateFirstAssoc_keysOf]
  · rename_i hany
    have hk : closureKey c ∉ keysOf acc := by
      rw [mem_keysOf_iff_any]
      simp_all
    have hkeys : keysOf (acc ++ [(closureKey c, newMergedClosure c)]) =
        keysOf acc ++ [closureKey c] := by simp [keysOf]
    rw [hkeys]
    refine List.Nodup.append hn (List.nodup_singleton _) ?_
    intro x hx hx2
    simp only [List.mem_singleton] at hx2
    subst hx2
    exact hk hx

theorem closureInsert_mem_keysOf (acc : List (String × MergedClosure))
    (c : RawClosure) (k : String) :
    k ∈ keysOf (closureInsert acc c) ↔ k ∈ keysOf acc ∨ k = closureKey c := by
  unfold closureInsert
  split
  · rename_i hany
    rw [updateFirstAssoc_keysOf]
    constructor
    · exact Or.inl
    · rintro (h | rfl)
      · exact h
      · rwa [mem_keysOf_iff_any]
  · simp [keysOf]

theorem closureInsert_persist {acc : List (String × MergedClosure)}
    (hn : (keysOf acc).Nodup) (c : RawClosure) {k : String}
    {m : MergedClosure} (hm : (k, m) ∈ acc) :
    ∃ m', (k, m') ∈ closureInsert acc c ∧ m.purposes ⊆ m'.purposes := by
  unfold closureInsert
  split
  · by_cases hk : k = closureKey c
    · subst hk
      exact ⟨mergeClosurePurpose m c, updateFirstAssoc_mem_update _ hn hm,
        mergeClosurePurpose_subset m c⟩
    · exact ⟨m, updateFirstAssoc_mem_of_ne hk hm, fun x hx => hx⟩
  · exact ⟨m, List.mem_append_left _ hm, fun x hx => hx⟩

theorem closureInsert_self {acc : List (String × MergedClosure)}
    (hn : (keysOf acc).Nodup) (c : RawClosure) :
    ∃ m, (closureKey c, m) ∈ closureInsert acc c ∧
      ∀ p, c.purpose = some p → p ≠ "" → p ∈ m.purposes := by
  unfold closureInsert
  split
  · rename_i hany
    have hk : closureKey c ∈ keysOf acc := by rwa [mem_keysOf_iff_any]
    obtain ⟨kv, hkv, hfst⟩ : ∃ kv ∈ acc, kv.1 = closureKey c := by
      simpa [keysOf, List.mem_map, eq_comm] using hk
    obtain ⟨k0, m0⟩ := kv
    simp only at hfst
    subst hfst
    exact ⟨mergeClosurePurpose m0 c, updateFirstAssoc_mem_update _ hn hkv,
      fun p hp hne => mergeClosurePurpose_mem hp hne⟩
  · refine ⟨newMergedClosure c, List.mem_append_right _ (by simp), ?_⟩
    intro p hp hne
    simp [newMergedClosure, hp, hne]

theorem dedupeClosures_go (rows : List RawClosure) :
    ∀ acc : List (String × MergedClosure), (keysOf acc).Nodup →
    (keysOf (rows.foldl closureInsert acc)).Nodup ∧
    (∀ k, k ∈ keysOf (rows.foldl closureInsert acc) ↔
      k ∈ keysOf acc ∨ ∃ r ∈ rows, closureKey r = k) ∧
    (∀ k m, (k, m) ∈ acc →
      ∃ m', (k, m') ∈ rows.foldl closureInsert acc ∧ m.purposes ⊆ m'.purposes) ∧
    (∀ r ∈ rows, ∀ p, r.purpose = some p → p ≠ "" →
      ∃ m, (closureKey r, m) ∈ rows.foldl closureInsert acc ∧ p ∈ m.purposes) := by
  induction rows with
  | nil =>
    intro acc hn
    refine ⟨hn, by simp, fun k m hm => ⟨m, hm, fun x hx => hx⟩, by simp⟩
  | cons c rows ih =>
    intro acc hn
    have hn' := closureInsert_keysOf_nodup hn c
    obtain ⟨ihn, ihmem, ihpersist, ihrows⟩ := ih (closureInsert acc c) hn'
    simp only [List.foldl_cons]
    refine ⟨ihn, ?_, ?_, ?_⟩
    · intro k
      rw [ihmem k, closureInsert_mem_keysOf]
      constructor
      · rintro ((h | rfl) | ⟨r, hr, rfl⟩)
        · exact Or.inl h
        · exact Or.inr ⟨c, by simp⟩
        · exact Or.inr ⟨r, by simp [hr]⟩
      · rintro (h | ⟨r, hr, rfl⟩)
        · exact Or.inl (Or.inl h)
        · rcases List.mem_cons.mp hr with rfl | hr'
          · exact Or.inl (Or.inr rfl)
          · exact Or.inr ⟨r, hr', rfl⟩
    · intro k m hm
      obtain ⟨m1, hm1, hsub1⟩ := closureInsert_persist hn c hm
      obtain ⟨m', hm', hsub'⟩ := ihpersist k m1 hm1
      exact ⟨m', hm', fun x hx => hsub' (hsub1 hx)⟩
    · intro r hr p hp hne
      rcases List.mem_cons.mp hr with rfl | hr'
      · obtain ⟨m0, hm0, hpur⟩ := closureInsert_self hn r
        obtain ⟨m', hm', hsub'⟩ := ihpersist _ m0 hm0
        exact ⟨m', hm', hsub' (hpur p hp hne)⟩
      · exact ihrows r hr' p hp hne

/-- C5: in the street-closure search, all raw rows sharing the composite
key (segment id, work start date, work end date) collapse into exactly one
merged record — the deduplicated map has no duplicate keys and contains a
key exactly when some raw row carries it — and that record's purposes list
contains every distinct non-empty purpose of the group; in particular two
rows with equal keys and purposes "Paving" and "Utility Work" yield the
single merged record carrying both. -/
theorem searchStreetClosures_dedup (rows : List RawClosure) :
    ((keysOf (dedupeClosures rows)).Nodup ∧
     (∀ k, k ∈ keysOf (dedupeClosures rows) ↔ ∃ r ∈ rows, closureKey r = k) ∧
     (∀ r ∈ rows, ∀ p, r.purpose = some p → p ≠ "" →
       ∃ m, (closureKey r, m) ∈ dedupeClosures rows ∧ p ∈ m.purposes)) ∧
    dedupeClosures
        [⟨"1", "2025-01-01", "2025-01-10", some "Paving"⟩,
         ⟨"1", "2025-01-01", "2025-01-10", some "Utility Work"⟩] =
      [("1|2025-01-01|2025-01-10",
        { segment_id := "1", work_start_date := "2025-01-01",
          work_end_date := "2025-01-10",
          purposes := ["Paving", "Utility Work"],
          purpose_merged := "Paving; Utility Work" })] := by
  constructor
  · obtain ⟨hn, hmem, _, hrows⟩ :=
      dedupeClosures_go rows ([] : List (String × MergedClosure)) (by simp [keysOf])
    refine ⟨hn, ?_, hrows⟩
    intro k
    rw [dedupeClosures, hmem k]
    simp [keysOf]
  · decide

theorem searchStreetClosures_dedup_witness :
    ∃ m, ("1|2025-01-01|2025-01-10", m) ∈ dedupeClosures
        [⟨"1", "2025-01-01", "2025-01-10", some "Paving"⟩,
         ⟨"1", "2025-01-01", "2025-01-10", some "Utility Work"⟩] ∧
      "Utility Work" ∈ m.purposes :=
  (searchStreetClosures_dedup
      [⟨"1", "2025-01-01", "2025-01-10", some "Paving"⟩,
       ⟨"1", "2025-01-01", "2025-01-10", some "Utility Work"⟩]).1.2.2
    ⟨"1", "2025-01-01", "2025-01-10", some "Utility Work"⟩
    (by simp) "Utility Work" rfl (by decide)

/-! ## Aggregated deduplication (`deduplicateAggregated`,
src/test/deduplication.test.js lines 47-63)

Records are merged in a `Map` keyed by the string
`period + "|" + topic`; a repeated key adds the incoming `count` onto the
stored record's count (`existing.count += record.count`), a fresh key
stores a copy of the record.  Counts are JS numbers used only additively,
modelled as integers. -/

structure AggRecord where
  period : String
  topic : String
  count : Int
  deriving DecidableEq, Repr

/-- The composite key `` `${record.period}|${record.topic}` ``. -/
def aggKey (r : AggRecord) : String := r.period ++ "|" ++ r.topic

/-- One iteration of the `records.forEach` merge loop. -/
def aggInsert (acc : List (String × AggRecord)) (r : AggRecord) :
    List (String × AggRecord) :=
  if acc.any (fun kv => kv.1 = aggKey r) then
    updateFirstAssoc acc (aggKey r) (fun e => { e with count := e.count + r.count })
  else acc ++ [(aggKey r, r)]

/-- `deduplicateAggregated(records)`: `Array.from(aggregated.values())`. -/
def deduplicateAggregated (records : List AggRecord) : List AggRecord :=
  (records.foldl aggInsert []).map Prod.snd

/-- Total count stored in the map under key `k`. -/
def accCountAgg (acc : List (String × AggRecord)) (k : String) : Int :=
  ((acc.filter (fun kv => kv.1 = k)).map (fun kv => kv.2.count)).sum

/-- Total count of the records of a list whose composite key is `k`. -/
def sumCounts (records : List AggRecord) (k : String) : Int :=
  ((records.filter (fun r => aggKey r = k)).map (fun r => r.count)).sum

theorem accCountAgg_cons (kv : String × AggRecord)
    (rest : List (String × AggRecord)) (k : String) :
    accCountAgg (kv :: rest) k =
      (if kv.1 = k then kv.2.count else 0) + accCountAgg rest k := by
  by_cases h : kv.1 = k <;> simp [accCountAgg, List.filter_cons, h]

theorem sumCounts_cons (r : AggRecord) (rs : List AggRecord) (k : String) :
    sumCounts (r :: rs) k =
      (if aggKey r = k then r.count else 0) + sumCounts rs k := by
  by_cases h : aggKey r = k <;> simp [sumCounts, List.filter_cons, h]

theorem updateFirstAssoc_accCountAgg (n : Int) :
    ∀ (acc : List (String × AggRecord)) (k0 k : String),
    acc.any (fun kv => kv.1 = k0) = true →
    accCountAgg (updateFirstAssoc acc k0
        (fun e => { e with count := e.count + n })) k =
      accCountAgg acc k + (if k0 = k then n else 0)
  | [], _, _, h => by simp at h
  | kv :: rest, k0, k, h => by
    by_cases hk : kv.1 = k0
    · subst hk
      simp only [updateFirstAssoc, eq_self_iff_true, if_true]
      rw [accCountAgg_cons, accCountAgg_cons]
      by_cases hkk : kv.1 = k
      · rw [if_pos hkk, if_pos hkk, if_pos hkk]
        ring
      · rw [if_neg hkk, if_neg hkk, if_neg hkk]
        ring
    · simp only [updateFirstAssoc, if_neg hk]
      rw [accCountAgg_cons, accCountAgg_cons]
      have h' : rest.any (fun kv => kv.1 = k0) = true := by
        simp [List.any_cons, hk] at h
        simpa using h
      rw [updateFirstAssoc_accCountAgg n rest k0 k h']
      ring

theorem aggInsert_accCountAgg (acc : List (String × AggRecord))
    (r : AggRecord) (k : String) :
    accCountAgg (aggInsert acc r) k =
      accCountAgg acc k + (if aggKey r = k then r.count else 0) := by
  unfold aggInsert
  split
  · exact updateFirstAssoc_accCountAgg r.count acc (aggKey r) k (by assumption)
  · by_cases h : aggKey r = k <;>
      simp [accCountAgg, List.filter_append, List.filter_cons, h]

theorem foldl_aggInsert_accCountAgg :
    ∀ (records : List AggRecord) (acc : List (String × AggRecord)) (k : String),
    accCountAgg (records.foldl aggInsert acc) k =
      accCountAgg acc k + sumCounts records k
  | [], acc, k => by simp [sumCounts, accCountAgg]
  | r :: rs, acc, k => by
    simp only [List.foldl_cons]
    rw [foldl_aggInsert_accCountAgg rs (aggInsert acc r) k,
      aggInsert_accCountAgg, sumCounts_cons]
    ring

theorem updateFirstAssoc_mem_src {k : String} {f : β → β} :
    ∀ {acc : List (String × β)} {kv : String × β},
    kv ∈ updateFirstAssoc acc k f →
    ∃ kv0 ∈ acc, kv.1 = kv0.1 ∧ (kv.2 = kv0.2 ∨ kv.2 = f kv0.2) := by
  intro acc
  induction acc with
  | nil =>
    intro kv h
    cases h
  | cons kv0 rest ih =>
    intro kv h
    simp only [updateFirstAssoc] at h
    split at h
    · rcases List.mem_cons.mp h with heq | hr
      · subst heq
        exact ⟨kv0, List.mem_cons_self _ _, rfl, Or.inr rfl⟩
      · exact ⟨kv, List.mem_cons_of_mem _ hr, rfl, Or.inl rfl⟩
    · rcases List.mem_cons.mp h with heq | hr
      · subst heq
        exact ⟨kv, List.mem_cons_self _ _, rfl, Or.inl rfl⟩
      · obtain ⟨kv1, hm, h1, h2⟩ := ih hr
        exact ⟨kv1, List.mem_cons_of_mem _ hm, h1, h2⟩

theorem aggInsert_inv {acc : List (String × AggRecord)}
    (hinv : ∀ kv ∈ acc, aggKey kv.2 = kv.1) (r : AggRecord) :
    ∀ kv ∈ aggInsert acc r, aggKey kv.2 = kv.1 := by
  intro kv h
  unfold aggInsert at h
  split at h
  · obtain ⟨kv0, hm, h1, h2⟩ := updateFirstAssoc_mem_src h
    rcases h2 with h2 | h2
    · rw [h1, h2]
      exact hinv kv0 hm
    · rw [h1, h2]
      have : aggKey { kv0.2 with count := kv0.2.count + r.count } = aggKey kv0.2 := rfl
      rw [this]
      exact hinv kv0 hm
  · rcases List.mem_append.mp h with hm | hm
    · exact hinv kv hm
    · simp only [List.mem_singleton] at hm
      subst hm
      rfl

theorem aggInsert_keysOf_nodup {acc : List (String × AggRecord)}
    (hn : (keysOf acc).Nodup) (r : AggRecord) :
    (keysOf (aggInsert acc r)).Nodup := by
  unfold aggInsert
  split
  · rwa [updateFirstAssoc_keysOf]
  · rename_i hany
    have hk : aggKey r ∉ keysOf acc := by
      rw [mem_keysOf_iff_any]
      simp_all
    have hkeys : keysOf (acc ++ [(aggKey r, r)]) = keysOf acc ++ [aggKey r] := by
      simp [keysOf]
    rw [hkeys]
    refine List.Nodup.append hn (List.nodup_singleton _) ?_
    intro x hx hx2
    simp only [List.mem_singleton] at hx2
    subst hx2
    exact hk hx

theorem aggInsert_mem_keysOf (acc : List (String × AggRecord))
    (r : AggRecord) (k : String) :
    k ∈ keysOf (aggInsert acc r) ↔ k ∈ keysOf acc ∨ k = aggKey r := by
  unfold aggInsert
  split
  · rename_i hany
    rw [updateFirstAssoc_keysOf]
    constructor
    · exact Or.inl
    · rintro (h | rfl)
      · exact h
      · rwa [mem_keysOf_iff_any]
  · simp [keysOf]

theorem foldl_aggInsert_props :
    ∀ (records : List AggRecord) (acc : List (String × AggRecord)),
    (keysOf acc).Nodup → (∀ kv ∈ acc, aggKey kv.2 = kv.1) →
    (keysOf (records.foldl aggInsert acc)).Nodup ∧
    (∀ kv ∈ records.foldl aggInsert acc, aggKey kv.2 = kv.1) ∧
    (∀ k, k ∈ keysOf (records.foldl aggInsert acc) ↔
      k ∈ keysOf acc ∨ ∃ r ∈ records, aggKey r = k)
  | [], acc, hn, hinv => ⟨hn, hinv, by simp⟩
  | r :: rs, acc, hn, hinv => by
    have hn' := aggInsert_keysOf_nodup hn r
    have hinv' := aggInsert_inv hinv r
    obtain ⟨ihn, ihinv, ihmem⟩ := foldl_aggInsert_props rs (aggInsert acc r) hn' hinv'
    simp only [List.foldl_cons]
    refine ⟨ihn, ihinv, ?_⟩
    intro k
    rw [ihmem k, aggInsert_mem_keysOf]
    constructor
    · rintro ((h | rfl) | ⟨r', hr', rfl⟩)
      · exact Or.inl h
      · exact Or.inr ⟨r, by simp⟩
      · exact Or.inr ⟨r', by simp [hr']⟩
    · rintro (h | ⟨r', hr', rfl⟩)
      · exact Or.inl (Or.inl h)
      · rcases List.mem_cons.mp hr' with rfl | hr''
        · exact Or.inl (Or.inr rfl)
        · exact Or.inr ⟨r', hr'', rfl⟩

theorem pairs_filter_length (k : String) :
    ∀ pairs : List (String × AggRecord),
    (∀ kv ∈ pairs, aggKey kv.2 = kv.1) →
    ((pairs.map Prod.snd).filter (fun r => aggKey r = k)).length =
      (pairs.filter (fun kv => kv.1 = k)).length
  | [], _ => rfl
  | kv :: rest, hinv => by
    have hk := hinv kv (List.mem_cons_self kv rest)
    have ih := pairs_filter_length k rest
      (fun kv' h => hinv kv' (List.mem_cons_of_mem _ h))
    by_cases h : kv.1 = k
    · simp [List.filter_cons, hk, h, ih]
    · simp [List.filter_cons, hk, h, ih]

theorem filter_key_length_nodup :
    ∀ pairs : List (String × AggRecord), (keysOf pairs).Nodup → ∀ k : String,
    (pairs.filter (fun kv => kv.1 = k)).length =
      if k ∈ keysOf pairs then 1 else 0
  | [], _, k => by simp [keysOf]
  | kv :: rest, hn, k => by
    have hn2 : (keysOf rest).Nodup := by
      simpa [keysOf, List.nodup_cons] using And.right (by
        simpa [keysOf, List.nodup_cons] using hn)
    have hk1 : kv.1 ∉ keysOf rest := by
      have := (by simpa [keysOf, List.nodup_cons] using hn :
        kv.1 ∉ keysOf rest ∧ (keysOf rest).Nodup)
      exact this.1
    by_cases h : kv.1 = k
    · subst h
      have hrest : rest.filter (fun kv' => kv'.1 = kv.1) = [] := by
        rw [List.filter_eq_nil_iff]
        intro kv' hm
        simp only [decide_eq_true_eq]
        intro hc
        exact hk1 (by
          rw [← hc]
          exact List.mem_map_of_mem Prod.fst hm)
      simp [List.filter_cons, keysOf, hrest]
    · have ih := filter_key_length_nodup rest hn2 k
      have hiff : k ∈ keysOf (kv :: rest) ↔ k ∈ keysOf rest := by
        simp only [keysOf, List.map_cons, List.mem_cons]
        constructor
        · rintro (rfl | hm)
          · exact absurd rfl h
          · exact hm
        · exact Or.inr
      rw [List.filter_cons, if_neg (by simpa using h), ih]
      by_cases hmem : k ∈ keysOf rest
      · simp [hiff, hmem]
      · simp [hiff, hmem]

theorem sumCounts_map_snd (k : String) :
    ∀ pairs : List (String × AggRecord),
    (∀ kv ∈ pairs, aggKey kv.2 = kv.1) →
    sumCounts (pairs.map Prod.snd) k = accCountAgg pairs k
  | [], _ => rfl
  | kv :: rest, hinv => by
    have hk := hinv kv (List.mem_cons_self kv rest)
    have ih := sumCounts_map_snd k rest
      (fun kv' h => hinv kv' (List.mem_cons_of_mem _ h))
    rw [List.map_cons, sumCounts_cons, accCountAgg_cons, hk, ih]

theorem dedupAgg_sum (records : List AggRecord) (k : String) :
    sumCounts (deduplicateAggregated records) k = sumCounts records k := by
  obtain ⟨hn, hinv, hmem⟩ :=
    foldl_aggInsert_props records [] (by simp [keysOf]) (by simp)
  rw [deduplicateAggregated, sumCounts_map_snd k _ hinv,
    foldl_aggInsert_accCountAgg records [] k]
  simp [accCountAgg]

/-- C6: for the period-topic aggregated deduplication, each output
record's count is the sum of the counts of all input records sharing its
composite key; each represented key yields exactly one output record; the
per-key totals are invariant under permuting the input; and merging two
records with counts `a`, `b` (or three with `a`, `b`, `c`) yields the
single record with count `a + b` (resp. `a + b + c`). -/
theorem deduplicateAggregated_additive (records : List AggRecord) :
    (∀ k, sumCounts (deduplicateAggregated records) k = sumCounts records k) ∧
    (∀ k, ((deduplicateAggregated records).filter
        (fun r => aggKey r = k)).length =
      if records.any (fun r => aggKey r = k) then 1 else 0) ∧
    (∀ records' : List AggRecord, records.Perm records' → ∀ k,
      sumCounts (deduplicateAggregated records) k =
        sumCounts (deduplicateAggregated records') k) ∧
    (∀ a b : Int, deduplicateAggregated
        [⟨"P", "T", a⟩, ⟨"P", "T", b⟩] = [⟨"P", "T", a + b⟩]) ∧
    (∀ a b c : Int, deduplicateAggregated
        [⟨"P", "T", a⟩, ⟨"P", "T", b⟩, ⟨"P", "T", c⟩] =
      [⟨"P", "T", a + b + c⟩]) := by
  obtain ⟨hn, hinv, hmem⟩ :=
    foldl_aggInsert_props records [] (by simp [keysOf]) (by simp)
  refine ⟨fun k => dedupAgg_sum records k, ?_, ?_, ?_, ?_⟩
  · intro k
    rw [deduplicateAggregated, pairs_filter_length k _ hinv,
      filter_key_length_nodup _ hn k]
    have hcond : (k ∈ keysOf (records.foldl aggInsert [])) ↔
        records.any (fun r => aggKey r = k) = true := by
      rw [hmem k]
      simp [keysOf, List.any_eq_true]
    by_cases hc : records.any (fun r => aggKey r = k) = true
    · rw [if_pos (hcond.mpr hc), if_pos hc]
    · rw [if_neg (fun hm => hc (hcond.mp hm)), if_neg hc]
  · intro records' hp k
    rw [dedupAgg_sum records k, dedupAgg_sum records' k]
    exact List.Perm.sum_eq ((hp.filter _).map _)
  · intro a b
    simp [deduplicateAggregated, aggInsert, updateFirstAssoc, aggKey]
  · intro a b c
    simp [deduplicateAggregated, aggInsert, updateFirstAssoc, aggKey]

theorem deduplicateAggregated_additive_witness :
    sumCounts (deduplicateAggregated
        [⟨"P", "T", 2⟩, ⟨"Q", "T", 3⟩]) "P|T" =
      sumCounts (deduplicateAggregated
        [⟨"Q", "T", 3⟩, ⟨"P", "T", 2⟩]) "P|T" :=
  (deduplicateAggregated_additive [⟨"P", "T", 2⟩, ⟨"Q", "T", 3⟩]).2.2.1
    [⟨"Q", "T", 3⟩, ⟨"P", "T", 2⟩] (List.Perm.swap _ _ _) "P|T"

/-! ## Generic deduplication (`deduplicateRecords`,
src/test/deduplication.test.js lines 13-42)

A record's `record[keyField]` value is a JS value: absent/undefined
(`none`) or a string or number key.  `Set.has` uses strict (SameValueZero)
equality, so a number key and a string key never match; that is modelled
by the disjoint constructors of `JsKey`.  `if (!key)` is JS truthiness:
it also treats a present-but-falsy key (empty string, zero) as "no key".
The `forEach` loop threads the `seen` set (insertion-ordered list), the
kept records, and the duplicate counter. -/

inductive JsKey where
  | str : String → JsKey
  | num : Int → JsKey
  deriving DecidableEq, Repr

def JsKey.truthy : JsKey → Bool
  | JsKey.str s => s ≠ ""
  | JsKey.num n => n ≠ 0

structure DedupRecord where
  key : Option JsKey
  payload : String
  deriving DecidableEq, Repr

/-- The key under which a record participates in deduplication: its key
value when present and truthy, nothing otherwise. -/
def truthyKey (r : DedupRecord) : Option JsKey :=
  match r.key with
  | some k => if k.truthy then some k else none
  | none => none

/-- One iteration of the dedup loop over state
`(seen, deduplicated, duplicateCount)`. -/
def dedupStep (st : List JsKey × List DedupRecord × Nat) (r : DedupRecord) :
    List JsKey × List DedupRecord × Nat :=
  match r.key with
  | none => (st.1, st.2.1 ++ [r], st.2.2)
  | some k =>
    if k.truthy = false then (st.1, st.2.1 ++ [r], st.2.2)
    else if k ∈ st.1 then (st.1, st.2.1, st.2.2 + 1)
    else (st.1 ++ [k], st.2.1 ++ [r], st.2.2)

structure DedupResult where
  records : List DedupRecord
  original_count : Nat
  deduplicated_count : Nat
  duplicates_removed : Nat
  deriving DecidableEq, Repr

/-- `deduplicateRecords(records)` (with the key field projection already
applied to give each record's `key`). -/
def deduplicateRecords (records : List DedupRecord) : DedupResult :=
  let st := records.foldl dedupStep ([], [], 0)
  { records := st.2.1
    original_count := records.length
    deduplicated_count := st.2.1.length
    duplicates_removed := st.2.2 }

theorem dedupGo_all_none :
    ∀ (records : List DedupRecord) (seen : List JsKey)
      (out : List DedupRecord) (dups : Nat),
    (∀ r ∈ records, r.key = none) →
    records.foldl dedupStep (seen, out, dups) = (seen, out ++ records, dups)
  | [], seen, out, dups, _ => by simp
  | r :: rs, seen, out, dups, h => by
    have hr : r.key = none := h r (List.mem_cons_self r rs)
    have ih := dedupGo_all_none rs seen (out ++ [r]) dups
      (fun r' h' => h r' (List.mem_cons_of_mem _ h'))
    simp only [List.foldl_cons, dedupStep, hr]
    rw [ih]
    simp

theorem dedupGo_nodup_keys :
    ∀ (records : List DedupRecord) (seen : List JsKey)
      (out : List DedupRecord) (dups : Nat),
    (records.filterMap truthyKey).Nodup →
    (∀ k ∈ records.filterMap truthyKey, k ∉ seen) →
    records.foldl dedupStep (seen, out, dups) =
      (seen ++ records.filterMap truthyKey, out ++ records, dups)
  | [], seen, out, dups, _, _ => by simp
  | r :: rs, seen, out, dups, hn, hs => by
    simp only [List.foldl_cons]
    cases hk : r.key with
    | none =>
      have hfm : (r :: rs).filterMap truthyKey = rs.filterMap truthyKey := by
        simp [List.filterMap_cons, truthyKey, hk]
      rw [hfm] at hn hs
      have ih := dedupGo_nodup_keys rs seen (out ++ [r]) dups hn hs
      simp only [dedupStep, hk]
      rw [ih, hfm]
      simp
    | some k =>
      by_cases ht : k.truthy = false
      · have hfm : (r :: rs).filterMap truthyKey = rs.filterMap truthyKey := by
          simp [List.filterMap_cons, truthyKey, hk, ht]
        rw [hfm] at hn hs
        have ih := dedupGo_nodup_keys rs seen (out ++ [r]) dups hn hs
        simp only [dedupStep, hk, if_pos ht]
        rw [ih, hfm]
        simp
      · have htt : k.truthy = true := by
          cases hb : k.truthy
          · exact absurd hb ht
          · rfl
        have hfm : (r :: rs).filterMap truthyKey =
            k :: rs.filterMap truthyKey := by
          simp [List.filterMap_cons, truthyKey, hk, htt]
        rw [hfm] at hn hs
        have hnotin : k ∉ seen := hs k (List.mem_cons_self _ _)
        have hn2 : (rs.filterMap truthyKey).Nodup := (List.nodup_cons.mp hn).2
        have hknot : k ∉ rs.filterMap truthyKey := (List.nodup_cons.mp hn).1
        have hs2 : ∀ k' ∈ rs.filterMap truthyKey, k' ∉ seen ++ [k] := by
          intro k' hm
          rw [List.mem_append, List.mem_singleton]
          rintro (hc | rfl)
          · exact hs k' (List.mem_cons_of_mem _ hm) hc
          · exact hknot hm
        have ih := dedupGo_nodup_keys rs (seen ++ [k]) (out ++ [r]) dups hn2 hs2
        have hstep : dedupStep (seen, out, dups) r =
            (seen ++ [k], out ++ [r], dups) := by
          simp [dedupStep, hk, htt, hnotin]
        rw [hstep, ih, hfm]
        simp

theorem dedupGo_keyless_kept :
    ∀ (records : List DedupRecord) (seen : List JsKey)
      (out : List DedupRecord) (dups : Nat),
    (records.foldl dedupStep (seen, out, dups)).2.1.filter
        (fun r => r.key = none) =
      out.filter (fun r => r.key = none) ++
        records.filter (fun r => r.key = none)
  | [], seen, out, dups => by simp
  | r :: rs, seen, out, dups => by
    simp only [List.foldl_cons]
    cases hk : r.key with
    | none =>
      simp only [dedupStep, hk]
      rw [dedupGo_keyless_kept rs]
      simp [List.filter_append, List.filter_cons, hk]
    | some k =>
      by_cases ht : k.truthy = false
      · simp only [dedupStep, hk, if_pos ht]
        rw [dedupGo_keyless_kept rs]
        simp [List.filter_append, List.filter_cons, hk]
      · by_cases hmem : k ∈ seen
        · simp only [dedupStep, hk, if_neg ht, if_pos hmem]
          rw [dedupGo_keyless_kept rs]
          simp [List.filter_cons, hk]
        · simp only [dedupStep, hk, if_neg ht, if_neg hmem]
          rw [dedupGo_keyless_kept rs]
          simp [List.filter_append, List.filter_cons, hk]

/-- C7: deduplication keys compare with strict value-and-type equality —
a record keyed by the number 123 and one keyed by the string "123" are
both kept with no duplicate counted — records with pairwise-distinct
truthy keys are all kept with `duplicates_removed = 0`, keyless records
are all kept (`duplicates_removed = 0` when every record is keyless), and
in any input every keyless record survives to the output. -/
theorem deduplicateRecords_strict (records : List DedupRecord) :
    (deduplicateRecords
        [⟨some (JsKey.num 123), "A"⟩, ⟨some (JsKey.str "123"), "B"⟩] =
      { records := [⟨some (JsKey.num 123), "A"⟩,
          ⟨some (JsKey.str "123"), "B"⟩],
        original_count := 2, deduplicated_count := 2,
        duplicates_removed := 0 }) ∧
    ((∀ r ∈ records, r.key = none) →
      deduplicateRecords records =
        ⟨records, records.length, records.length, 0⟩) ∧
    ((records.filterMap truthyKey).Nodup →
      deduplicateRecords records =
        ⟨records, records.length, records.length, 0⟩) ∧
    ((deduplicateRecords records).records.filter (fun r => r.key = none) =
      records.filter (fun r => r.key = none)) := by
  refine ⟨by decide, ?_, ?_, ?_⟩
  · intro h
    unfold deduplicateRecords
    rw [dedupGo_all_none records [] [] 0 h]
    simp
  · intro hn
    unfold deduplicateRecords
    rw [dedupGo_nodup_keys records [] [] 0 hn (by simp)]
    simp
  · unfold deduplicateRecords
    rw [dedupGo_keyless_kept records [] [] 0]
    simp

theorem deduplicateRecords_strict_witness :
    deduplicateRecords [⟨none, "x"⟩, ⟨none, "y"⟩, ⟨none, "z"⟩] =
      ⟨[⟨none, "x"⟩, ⟨none, "y"⟩, ⟨none, "z"⟩], 3, 3, 0⟩ :=
  (deduplicateRecords_strict [⟨none, "x"⟩, ⟨none, "y"⟩, ⟨none, "z"⟩]).2.1
    (by decide)

/-! ## Auto-pagination (`autoPaginate`, src/lib/reliability.js lines
269-305)

`requestFn(offset, pageSize)` is modelled as a pure page function from the
offset (the page size being fixed per run).  The `while` loop is embedded
with `fuel = maxPages - page` remaining iterations; the result is the
final `allRecords.slice(0, maxRecords)` together with the number of page
fetches performed.  The defaults are `maxRecords = 10000`, `pageSize =
1000`, `maxPages = 10`. -/

/-- The `while (page < maxPages && allRecords.length < maxRecords)` loop.
Returns the accumulated records and the number of `requestFn` calls. -/
def autoPaginateGo (fetch : Nat → Nat → List α) (maxRecords pageSize : Nat) :
    Nat → Nat → List α → List α × Nat
  | 0, _, acc => (acc, 0)
  | fuel + 1, offset, acc =>
    if maxRecords ≤ acc.length then (acc, 0)
    else
      let records := fetch offset pageSize
      if records.isEmpty then (acc, 1)
      else
        let acc' := acc ++ records
        if maxRecords ≤ acc'.length then (acc', 1)
        else if records.length < pageSize then (acc', 1)
        else
          let r := autoPaginateGo fetch maxRecords pageSize fuel
            (offset + pageSize) acc'
          (r.1, r.2 + 1)

/-- `autoPaginate(requestFn, {maxRecords, pageSize, maxPages})`. -/
def autoPaginate (fetch : Nat → Nat → List α)
    (maxRecords : Nat := 10000) (pageSize : Nat := 1000)
    (maxPages : Nat := 10) : List α × Nat :=
  let r := autoPaginateGo fetch maxRecords pageSize maxPages 0 []
  (r.1.take maxRecords, r.2)

theorem autoPaginateGo_calls_le (fetch : Nat → Nat → List α)
    (maxRecords pageSize : Nat) :
    ∀ (fuel offset : Nat) (acc : List α),
    (autoPaginateGo fetch maxRecords pageSize fuel offset acc).2 ≤ fuel
  | 0, _, _ => Nat.le_refl 0
  | fuel + 1, offset, acc => by
    simp only [autoPaginateGo]
    split
    · exact Nat.zero_le _
    · split
      · exact Nat.le_add_left 1 fuel
      · split
        · exact Nat.le_add_left 1 fuel
        · split
          · exact Nat.le_add_left 1 fuel
          · exact Nat.succ_le_succ
              (autoPaginateGo_calls_le fetch maxRecords pageSize fuel _ _)

/-- C8: `autoPaginate` always terminates with at most `maxPages` fetches
and at most `maxRecords` returned records, and it stops after a single
fetch whenever the first page is empty, shorter than `pageSize`, or
already reaches `maxRecords` (truncating the overshoot). -/
theorem autoPaginate_bounds (fetch : Nat → Nat → List α)
    (maxRecords pageSize maxPages : Nat) :
    ((autoPaginate fetch maxRecords pageSize maxPages).2 ≤ maxPages) ∧
    ((autoPaginate fetch maxRecords pageSize maxPages).1.length ≤
      maxRecords) ∧
    (1 ≤ maxPages → 1 ≤ maxRecords → fetch 0 pageSize = [] →
      autoPaginate fetch maxRecords pageSize maxPages = ([], 1)) ∧
    (1 ≤ maxPages → ¬ (fetch 0 pageSize).isEmpty →
      (fetch 0 pageSize).length < pageSize →
      (fetch 0 pageSize).length < maxRecords →
      autoPaginate fetch maxRecords pageSize maxPages =
        (fetch 0 pageSize, 1)) ∧
    (1 ≤ maxPages → 1 ≤ maxRecords → maxRecords ≤ (fetch 0 pageSize).length →
      autoPaginate fetch maxRecords pageSize maxPages =
        ((fetch 0 pageSize).take maxRecords, 1)) := by
  refine ⟨?_, ?_, ?_, ?_, ?_⟩
  · exact autoPaginateGo_calls_le fetch maxRecords pageSize maxPages 0 []
  · simp only [autoPaginate]
    exact List.length_take_le _ _
  · intro hp hr hf
    cases maxPages with
    | zero => omega
    | succ f =>
      simp only [autoPaginate, autoPaginateGo]
      rw [if_neg (by simp; omega), hf]
      simp
  · intro hp hne hshort hcap
    cases maxPages with
    | zero => omega
    | succ f =>
      have hlen : ¬ maxRecords ≤ ([] : List α).length + 0 := by
        simp
        omega
      simp only [autoPaginate, autoPaginateGo]
      rw [if_neg (by simp; omega)]
      rw [if_neg hne]
      rw [if_neg (by simp; omega), if_pos hshort]
      simp [List.take_of_length_le (Nat.le_of_lt hcap)]
  · intro hp hr hcap
    cases maxPages with
    | zero => omega
    | succ f =>
      have hne : ¬ (fetch 0 pageSize).isEmpty := by
        rw [List.isEmpty_iff]
        intro hc
        rw [hc] at hcap
        simp at hcap
        omega
      simp only [autoPaginate, autoPaginateGo]
      rw [if_neg (by simp; omega)]
      rw [if_neg hne]
      rw [if_pos (by simp; omega)]
      simp

theorem autoPaginate_bounds_witness :
    autoPaginate (fun _ _ => ([] : List Nat)) 10000 1000 10 = ([], 1) :=
  (autoPaginate_bounds (fun _ _ => ([] : List Nat)) 10000 1000 10).2.2.1
    (by norm_num) (by norm_num) rfl

/-! ## Custom time windows (`getCustomWindow`, src/lib/reliability.js
lines 524-542, the `lib/time-windows.js` segment)

A JS `Date` is modelled as a civil calendar day number plus the
millisecond of day; `setHours(23,59,59,999)` sets the millisecond of day
to 86399999, `setHours(0,0,0,0)` to 0, and `setDate(getDate() - days)`
moves back `days` calendar days.  Daylight-saving shifts are not modelled:
every civil day is 86400000 ms (the claim's `round` tolerance absorbs
such shifts either way).  The `days` argument is a JS number, modelled as
`ℚ`; `Number.isInteger(days)` is `den = 1`.  A thrown error is
`Except.error` carrying the message. -/

structure JsDateTime where
  day : Int
  msInDay : Nat
  deriving DecidableEq, Repr

def JsDateTime.ms (d : JsDateTime) : Int := d.day * 86400000 + d.msInDay

def JsDateTime.hour (d : JsDateTime) : Nat := d.msInDay / 3600000

def JsDateTime.minute (d : JsDateTime) : Nat := d.msInDay % 3600000 / 60000

def JsDateTime.second (d : JsDateTime) : Nat := d.msInDay % 60000 / 1000

def JsDateTime.millis (d : JsDateTime) : Nat := d.msInDay % 1000

/-- The returned window; `endTime` is the JS object's `end` field
(a reserved word in Lean). -/
structure TimeWindow where
  start : JsDateTime
  endTime : JsDateTime
  days : ℚ
  type : String
  deriving DecidableEq, Repr

/-- `getCustomWindow(days)`, with `today` the current civil day. -/
def getCustomWindow (today : Int) (days : ℚ) : Except String TimeWindow :=
  if ¬ days.den = 1 ∨ days ≤ 0 then
    Except.error ("Days must be a positive integer, got: " ++ toString days)
  else
    Except.ok
      { start := ⟨today - days.num, 0⟩
        endTime := ⟨today, 86399999⟩
        days := days
        type := "custom" }

/-- C9: for every positive integer `N`, the returned window starts at
00:00:00.000, ends at 23:59:59.999, and the elapsed time rounds to `N` or
`N + 1` days; every non-integer or non-positive day count throws a
descriptive error naming the offending value. -/
theorem getCustomWindow_spec (today : Int) :
    (∀ N : Nat, 0 < N →
      ∃ w, getCustomWindow today (N : ℚ) = Except.ok w ∧
        w.start.hour = 0 ∧ w.start.minute = 0 ∧
        w.start.second = 0 ∧ w.start.millis = 0 ∧
        w.endTime.hour = 23 ∧ w.endTime.minute = 59 ∧
        w.endTime.second = 59 ∧ w.endTime.millis = 999 ∧
        (round (((w.endTime.ms - w.start.ms : ℤ) : ℚ) / 86400000) = (N : ℤ) ∨
         round (((w.endTime.ms - w.start.ms : ℤ) : ℚ) / 86400000) =
           (N : ℤ) + 1)) ∧
    (∀ q : ℚ, ¬ q.den = 1 ∨ q ≤ 0 →
      getCustomWindow today q =
        Except.error ("Days must be a positive integer, got: " ++
          toString q)) := by
  constructor
  · intro N hN
    have hden : ((N : ℚ)).den = 1 := Rat.den_natCast N
    have hpos : (0 : ℚ) < (N : ℚ) := by
      exact_mod_cast hN
    have hnum : ((N : ℚ)).num = (N : ℤ) := Rat.num_natCast N
    refine ⟨⟨⟨today - (N : ℤ), 0⟩, ⟨today, 86399999⟩, (N : ℚ), "custom"⟩,
      ?_, ?_, ?_, ?_, ?_, ?_, ?_, ?_, ?_, Or.inr ?_⟩
    · rw [getCustomWindow, if_neg (by push_neg; exact ⟨hden, hpos⟩)]
      simp [hnum]
    · norm_num [JsDateTime.hour]
    · norm_num [JsDateTime.minute]
    · norm_num [JsDateTime.second]
    · norm_num [JsDateTime.millis]
    · norm_num [JsDateTime.hour]
    · norm_num [JsDateTime.minute]
    · norm_num [JsDateTime.second]
    · norm_num [JsDateTime.millis]
    · simp only [JsDateTime.ms]
      rw [round_eq, Int.floor_eq_iff]
      constructor
      · push_cast
        linarith
      · push_cast
        linarith
  · intro q hq
    rw [getCustomWindow, if_pos hq]

theorem getCustomWindow_spec_witness :
    ∃ w, getCustomWindow 0 ((90 : Nat) : ℚ) = Except.ok w ∧
      w.start.hour = 0 ∧ w.start.minute = 0 ∧
      w.start.second = 0 ∧ w.start.millis = 0 ∧
      w.endTime.hour = 23 ∧ w.endTime.minute = 59 ∧
      w.endTime.second = 59 ∧ w.endTime.millis = 999 ∧
      (round (((w.endTime.ms - w.start.ms : ℤ) : ℚ) / 86400000) =
        ((90 : Nat) : ℤ) ∨
       round (((w.endTime.ms - w.start.ms : ℤ) : ℚ) / 86400000) =
        ((90 : Nat) : ℤ) + 1) :=
  (getCustomWindow_spec 0).1 90 (by norm_num)
